import Mathlib

/-!
Verification of the EpubGraph recommendation core.

This file gives a shallow embedding, in Lean 4, of the similarity-graph and
hybrid-ranking engine of the EpubGraph repository
(`src-tauri/src/graph/mod.rs`) and of its vector store
(`src-tauri/src/vector/mod.rs`), together with theorems settling a list of
claims about that code.

Modelling conventions:
- Rust `i64` book identifiers become `Int`.
- `f64`/`f32` arithmetic is modelled by exact rational arithmetic (`ℚ`),
  except where a square root is required (`cosine_similarity`), which is
  modelled over `ℝ`, and except for the byte-level embedding serialisation,
  where an `f32` is modelled by its 32-bit pattern (a `Nat` below `2 ^ 32`),
  since `to_le_bytes`/`from_le_bytes` act on the bit pattern.
- Rust `HashMap`s are modelled as association lists with distinct keys;
  iteration order of a `HashMap` is arbitrary in Rust, and none of the
  verified properties depend on it.
- Rust's stable `sort_by` is modelled by an insertion sort; the traversal
  spec leaves the order of score ties unspecified, and no claim depends on
  tie order.
- Loops are modelled by structural recursion; the two worklist loops
  (`multi_hop_traversal`, MMR's selection loop) take a fuel argument that
  provably dominates the number of iterations the Rust loop can make
  (each traversal iteration pops one frontier entry, and entries are pushed
  only for seeds or for newly visited nodes, so the pop count is at most
  `seeds.length + edges.length`; each MMR iteration grows `selected` by one,
  so the iteration count is at most `top_k`).
- Fallible Rust functions returning `AppResult` are modelled with `Option`
  (`none` = error) or with an explicit error component.
-/

namespace EpubGraph

/-! ## Generic helpers: association-list lookup and descending sort -/

/-- Lookup in an association list, with a default value: models
`HashMap::get(..).copied().unwrap_or(default)`. -/
def lookupD {β : Type} (l : List (Int × β)) (k : Int) (d : β) : β :=
  match l with
  | [] => d
  | p :: rest => if p.1 = k then p.2 else lookupD rest k d

/-- Optional lookup in an association list: models `HashMap::get`. -/
def lookupOpt {β : Type} (l : List (Int × β)) (k : Int) : Option β :=
  match l with
  | [] => none
  | p :: rest => if p.1 = k then some p.2 else lookupOpt rest k

/-- Insert one element into a list sorted by strictly descending `key`,
keeping it sorted. -/
def insertByDesc {α : Type} {β : Type} [LinearOrder β] (key : α → β) (c : α) :
    List α → List α
  | [] => [c]
  | x :: rest =>
    if key x < key c then c :: x :: rest else x :: insertByDesc key c rest

/-- Sort a list in descending order of `key`: models Rust
`sort_by(|a, b| key(b).partial_cmp(&key(a)))`.  The claims verified below
never depend on the order of key ties. -/
def sortByDesc {α : Type} {β : Type} [LinearOrder β] (key : α → β) :
    List α → List α
  | [] => []
  | x :: rest => insertByDesc key x (sortByDesc key rest)

/-! ## Embedding serialisation (`vector/mod.rs`)

An `f32` is modelled by its 32-bit IEEE-754 pattern, a `Nat` below `2 ^ 32`;
`serialize_embedding` writes each value as four little-endian bytes and
`deserialize_embedding` reads them back. -/

/-- Models `serialize_embedding`: each 32-bit value becomes its four
little-endian bytes (`f32::to_le_bytes`). -/
def serialize_embedding : List Nat → List Nat
  | [] => []
  | x :: rest =>
    x % 256 :: x / 256 % 256 :: x / 65536 % 256 :: x / 16777216 % 256 ::
      serialize_embedding rest

/-- Helper for `deserialize_embedding`: reads four bytes at a time
(`bytes.chunks(4)` with `f32::from_le_bytes`); `none` models the
unreachable `try_into` failure on a short chunk. -/
def deserializeChunks : List Nat → Option (List Nat)
  | [] => some []
  | b0 :: b1 :: b2 :: b3 :: rest =>
    (deserializeChunks rest).map
      (fun t => (b0 + 256 * b1 + 65536 * b2 + 16777216 * b3) :: t)
  | _ => none

/-- Models `deserialize_embedding`: rejects byte strings whose length is not
a multiple of four (`AppError::InvalidInput`, modelled as `none`), then
decodes four little-endian bytes per value. -/
def deserialize_embedding (bytes : List Nat) : Option (List Nat) :=
  if bytes.length % 4 = 0 then deserializeChunks bytes else none

/-! ## Vector store state (`VectorStore`)

The store owns an in-memory cache (`DashMap<i64, Vec<f32>>`) and a durable
SQLite table keyed by book id.  Both are modelled as association lists; a
stored row keeps the embedding together with its model tag and optional text
hash, exactly the columns written by `store_embedding`.  For the claims about
`store_embedding` the blob is modelled at the value level (the byte layout is
verified separately above). -/

/-- Dimension of nomic-embed-text embeddings (`EMBEDDING_DIM`). -/
def EMBEDDING_DIM : Nat := 768

/-- Error kinds surfaced by the vector store; `dimensionMismatch expected got`
models `AppError::InvalidInput("Expected {} dimensions, got {}")`. -/
inductive VSError where
  | dimensionMismatch : Nat → Nat → VSError
deriving DecidableEq

/-- The mutable state of a `VectorStore`: the in-memory cache and the
persisted `embeddings` table. -/
structure VSState where
  cache : List (Int × List ℚ)
  db : List (Int × (List ℚ × String × Option String))

/-- Insert-or-replace for an association list: models both `DashMap::insert`
and SQLite `INSERT OR REPLACE`. -/
def upsert {β : Type} (l : List (Int × β)) (k : Int) (v : β) : List (Int × β) :=
  l.filter (fun p => decide (p.1 ≠ k)) ++ [(k, v)]

/-- Models `VectorStore::store_embedding`: rejects a vector whose length is
not `EMBEDDING_DIM` before touching any state; otherwise writes the row and
updates the cache. -/
def store_embedding (s : VSState) (book_id : Int) (embedding : List ℚ)
    (model : String) (text_hash : Option String) : Option VSError × VSState :=
  if embedding.length ≠ EMBEDDING_DIM then
    (some (VSError.dimensionMismatch EMBEDDING_DIM embedding.length), s)
  else
    (none,
     { cache := upsert s.cache book_id embedding,
       db := upsert s.db book_id (embedding, model, text_hash) })

/-! ## Cosine similarity and nearest-neighbour search

`cosine_similarity` divides by a square root, so it is modelled over `ℝ`
(embedding components stay rational).  `find_similar` operates on a given
cache snapshot; the lazy cache warm-up concerns I/O and concurrency and is
outside the pure model, the claims quantify over the cached content. -/

/-- Models `cosine_similarity`: dot product over the zipped vectors divided
by the product of the L2 norms; 0 on length mismatch or zero norm. -/
noncomputable def cosine_similarity (a b : List ℚ) : ℝ :=
  if a.length ≠ b.length then 0
  else
    let pairs := a.zip b
    let dot : ℝ := (pairs.map (fun p => (p.1 : ℝ) * (p.2 : ℝ))).sum
    let norm_a : ℝ := (pairs.map (fun p => (p.1 : ℝ) * (p.1 : ℝ))).sum
    let norm_b : ℝ := (pairs.map (fun p => (p.2 : ℝ) * (p.2 : ℝ))).sum
    let norm_product := Real.sqrt (norm_a * norm_b)
    if norm_product > 0 then dot / norm_product else 0

/-- Models `VectorStore::find_similar` on a cache snapshot: similarity of the
query against every non-excluded cached embedding, sorted descending,
truncated to `k`. -/
noncomputable def find_similar (cache : List (Int × List ℚ)) (query : List ℚ)
    (k : Nat) (exclude_ids : List Int) : List (Int × ℝ) :=
  let similarities := (cache.filter (fun e => decide (e.1 ∉ exclude_ids))).map
    (fun e => (e.1, cosine_similarity query e.2))
  (sortByDesc Prod.snd similarities).take k

/-! ## Book metadata and edge-weight fusion (`compute_all_edge_weights`)

Only the fields of `db::Book` read by the edge-weight functions are
modelled: `author`, `series` and `series_index`. -/

/-- The metadata of a catalog item used by edge-weight fusion. -/
structure Book where
  author : Option String
  series : Option String
  series_index : Option ℚ

/-- Models `compute_all_edge_weights`: emits, in order, a "content" edge when
the supplied embedding similarity exceeds 0.3, an "author" edge of weight
0.85 when both authors are present and equal, and a "series" edge whose
weight depends on the series positions when both series are present and
equal. -/
def compute_all_edge_weights (book_a book_b : Book)
    (embedding_similarity : Option ℚ) : List (ℚ × String) :=
  (match embedding_similarity with
   | some sim => if sim > 3/10 then [(sim, "content")] else []
   | none => []) ++
  ((if book_a.author.isSome = true ∧ book_a.author = book_b.author then
      [((85/100 : ℚ), "author")]
    else []) ++
   (if book_a.series.isSome = true ∧ book_a.series = book_b.series then
      [(((match book_a.series_index, book_b.series_index with
          | some a, some b => if |a - b| ≤ 1 then 95/100 else 75/100
          | _, _ => 7/10) : ℚ), "series")]
    else []))

/-- Models `compute_edge_weight`: the highest-weighted of the qualifying
edges (Rust `max_by` keeps the last maximum), or `(0.0, "none")` when none
qualify. -/
def compute_edge_weight (book_a book_b : Book)
    (embedding_similarity : Option ℚ) : ℚ × String :=
  let edges := compute_all_edge_weights book_a book_b embedding_similarity
  match edges.foldl
      (fun best e =>
        match best with
        | none => some e
        | some b => if b.1 ≤ e.1 then some e else some b) none with
  | none => (0, "none")
  | some e => e

/-! ## The similarity graph (`BookGraph`)

The graph is built by successive `add_edge(source, target, weight,
edge_type)` calls and is a directed multigraph; it is modelled by its edge
list in insertion order.  `neighbors` returns the outgoing edges of a node;
the claims below do not depend on adjacency order. -/

/-- One directed edge of the book graph, as inserted by `add_edge`
(the `EdgeData` payload is inlined). -/
structure GraphEdge where
  source : Int
  target : Int
  weight : ℚ
  edge_type : String
deriving DecidableEq

/-- The in-memory book graph: its inserted edges. -/
structure BookGraph where
  edges : List GraphEdge
deriving DecidableEq

/-- Models `BookGraph::neighbors`: the `(target, weight, edge_type)` triples
of the outgoing edges of `book_id`. -/
def BookGraph.neighbors (g : BookGraph) (book_id : Int) :
    List (Int × ℚ × String) :=
  g.edges.filterMap
    (fun e =>
      if e.source = book_id then some (e.target, e.weight, e.edge_type)
      else none)

/-- All endpoints of the graph's edges, in insertion order and with
duplicates. -/
def endpointList (g : BookGraph) : List Int :=
  g.edges.foldr (fun e acc => e.source :: e.target :: acc) []

/-- The node set of the graph (`id_to_node.keys()`), one entry per node.
`HashMap` key order is arbitrary in Rust; the verified properties are
independent of the order, only distinctness matters. -/
def nodesList (g : BookGraph) : List Int :=
  (endpointList g).dedup

/-- Models `BookGraph::node_count`. -/
def BookGraph.node_count (g : BookGraph) : Nat :=
  (nodesList g).length

/-- The largest out-degree of any node of the graph. -/
def maxOutDegree (g : BookGraph) : Nat :=
  ((nodesList g).map (fun v => (g.neighbors v).length)).foldl Nat.max 0

/-! ## Multi-hop traversal (`multi_hop_traversal`) -/

/-- Models `TraversalConfig`. -/
structure TraversalConfig where
  max_hops : Nat
  min_weights : List ℚ
  decay_factor : ℚ
  max_candidates : Nat
deriving DecidableEq

/-- Models `TraversalConfig::default()`: 3 hops, thresholds 0.5/0.4/0.3,
decay 0.75, cap 500. -/
def TraversalConfig.default : TraversalConfig :=
  ⟨3, [1/2, 2/5, 3/10], 3/4, 500⟩

/-- Models `TraversalCandidate`. -/
structure TraversalCandidate where
  book_id : Int
  score : ℚ
  path : List Int
  edge_types : List String
deriving DecidableEq

/-- One entry of the traversal's BFS frontier queue: the tuple
`(node, accumulated_score, path, edge_types, hop)`. -/
structure FrontierItem where
  node : Int
  score : ℚ
  path : List Int
  edge_types : List String
  hop : Nat
deriving DecidableEq

/-- The working state of one `multi_hop_traversal` call: the candidate map
(an association list keyed by book id), the visited set and the frontier
queue. -/
structure TravState where
  candidates : List (Int × TraversalCandidate)
  visited : List Int
  frontier : List FrontierItem
deriving DecidableEq

/-- Models `candidates.entry(neighbor).and_modify(..).or_insert(..)`: insert
the candidate, or overwrite the existing entry only when the new score is
strictly better. -/
def updateCandidate (cands : List (Int × TraversalCandidate)) (key : Int)
    (c : TraversalCandidate) : List (Int × TraversalCandidate) :=
  if cands.any (fun p => decide (p.1 = key)) then
    cands.map (fun p =>
      if p.1 = key then (p.1, if p.2.score < c.score then c else p.2) else p)
  else cands ++ [(key, c)]

/-- The body of the traversal's neighbour loop for one neighbour edge
`(target, weight, edge_type)`: skip under-threshold edges, score the
neighbour with decay, update the candidate map, and enqueue unvisited
neighbours. -/
def travExpandStep (cfg : TraversalConfig) (item : FrontierItem) (minw : ℚ)
    (st : TravState) (nb : Int × ℚ × String) : TravState :=
  if nb.2.1 < minw then st
  else
    let new_score := item.score * nb.2.1 * cfg.decay_factor ^ item.hop
    let new_path := item.path ++ [nb.1]
    let new_edge_types := item.edge_types ++ [nb.2.2]
    let cands := updateCandidate st.candidates nb.1
      ⟨nb.1, new_score, new_path, new_edge_types⟩
    if nb.1 ∈ st.visited then { st with candidates := cands }
    else
      { candidates := cands, visited := st.visited ++ [nb.1],
        frontier :=
          st.frontier ++ [⟨nb.1, new_score, new_path, new_edge_types,
            item.hop + 1⟩] }

/-- The traversal's `while let Some(..) = frontier.pop_front()` loop: a
popped node is not expanded once its hop depth reaches `max_hops` or the
candidate count has reached `max_candidates`; otherwise each neighbour edge
meeting that hop's threshold is followed.  The fuel argument dominates the
iteration count (see the file header). -/
def travLoop (g : BookGraph) (cfg : TraversalConfig) :
    Nat → TravState → TravState
  | 0, st => st
  | Nat.succ fuel, st =>
    match st.frontier with
    | [] => st
    | item :: rest =>
      if cfg.max_hops ≤ item.hop ∨
          cfg.max_candidates ≤ st.candidates.length then
        travLoop g cfg fuel { st with frontier := rest }
      else
        travLoop g cfg fuel
          ((g.neighbors item.node).foldl
            (travExpandStep cfg item (cfg.min_weights.getD item.hop (3/10)))
            { st with frontier := rest })

/-- The traversal's seed initialisation: each seed is marked visited (the
visited set deduplicates) and pushed on the frontier with score 1.0, path
`[seed]` and hop 0. -/
def initTravState (seeds : List Int) : TravState :=
  seeds.foldl
    (fun st s =>
      { st with
        visited := if s ∈ st.visited then st.visited else st.visited ++ [s],
        frontier := st.frontier ++ [⟨s, 1, [s], [], 0⟩] })
    ⟨[], [], []⟩

/-- Models `multi_hop_traversal`: run the BFS loop, drop the seed entries
from the candidate map, and sort the surviving candidates by descending
score. -/
def multi_hop_traversal (g : BookGraph) (seeds : List Int)
    (cfg : TraversalConfig) : List TraversalCandidate :=
  let final := travLoop g cfg (seeds.length + g.edges.length + 1)
    (initTravState seeds)
  sortByDesc TraversalCandidate.score
    ((final.candidates.filter (fun p => decide (p.1 ∉ seeds))).map Prod.snd)

/-! ## Personalized PageRank (`personalized_pagerank`) -/

/-- Models `PageRankConfig`. -/
structure PageRankConfig where
  damping : ℚ
  preference_weight : ℚ
  iterations : Nat
  epsilon : ℚ
deriving DecidableEq

/-- Models `PageRankConfig::default()`: damping 0.85, preference weight 0.3,
20 iterations, epsilon 1e-6. -/
def PageRankConfig.default : PageRankConfig :=
  ⟨17/20, 3/10, 20, 1/1000000⟩

/-- The out-degree used to split a node's score mass: its neighbour count,
at least 1 (`neighbors(..).len().max(1)`), as a rational. -/
def outDegree (g : BookGraph) (u : Int) : ℚ :=
  (Nat.max (g.neighbors u).length 1 : ℕ)

/-- The score mass node `u` (with current score `su`) sends to node `v` in
one iteration: `su * weight / out_degree(u)` for every edge `u → v`
(the inner `for (neighbor, weight, _) in graph.neighbors(other_node)` loop).
-/
def contributionTo (g : BookGraph) (v : Int) (u : Int) (su : ℚ) : ℚ :=
  ((g.neighbors u).map
    (fun t => if t.1 = v then su * t.2.1 / outDegree g u else 0)).sum

/-- The total incoming score mass of node `v`: contributions from every
entry of the current score map. -/
def inflowTo (g : BookGraph) (scores : List (Int × ℚ)) (v : Int) : ℚ :=
  (scores.map (fun p => contributionTo g v p.1 p.2)).sum

/-- The personalization value of a node that occurs in the seed or
preference list: each occurrence of a seed adds `seed_weight` and each
occurrence of a preference adds `pref_weight` (the `entry(..).or_default()
+= w` folds); absent nodes fall back to the default (`unwrap_or`). -/
def persValue (seeds preferences : List Int)
    (seed_weight pref_weight dflt : ℚ) (v : Int) : ℚ :=
  if v ∈ seeds ∨ v ∈ preferences then
    seed_weight * (seeds.count v : ℚ) + pref_weight * (preferences.count v : ℚ)
  else dflt

/-- The personalization vector of `personalized_pagerank`, as a function:
seeds collectively receive `1 - preference_weight` and preferences
`preference_weight`, split evenly (`max(1)` guards empty lists); with no
seeds and no preferences every node gets the uniform `1/n`, which is also
the `unwrap_or(initial_score)` default for nodes outside the map. -/
def personalizationFun (g : BookGraph) (seeds preferences : List Int)
    (cfg : PageRankConfig) (v : Int) : ℚ :=
  if 0 < seeds.length + preferences.length then
    persValue seeds preferences
      ((1 - cfg.preference_weight) / (Nat.max seeds.length 1 : ℚ))
      (cfg.preference_weight / (Nat.max preferences.length 1 : ℚ))
      (1 / ((nodesList g).length : ℚ)) v
  else 1 / ((nodesList g).length : ℚ)

/-- One power iteration: every node's new score is
`damping * inflow + (1 - damping) * personalization`. -/
def prStep (g : BookGraph) (pers : Int → ℚ) (cfg : PageRankConfig)
    (scores : List (Int × ℚ)) : List (Int × ℚ) :=
  (nodesList g).map
    (fun v =>
      (v, cfg.damping * inflowTo g scores v + (1 - cfg.damping) * pers v))

/-- The `max_diff` accumulator of one iteration: the largest absolute score
change across the node set. -/
def prMaxDiff (old new : List (Int × ℚ)) (nodes : List Int) : ℚ :=
  nodes.foldl (fun m v => max m |lookupD new v 0 - lookupD old v 0|) 0

/-- The iteration loop of `personalized_pagerank`: up to the configured
iteration count, stopping early once `max_diff < epsilon`. -/
def prRun (g : BookGraph) (pers : Int → ℚ) (cfg : PageRankConfig) :
    Nat → List (Int × ℚ) → List (Int × ℚ)
  | 0, scores => scores
  | Nat.succ k, scores =>
    let new_scores := prStep g pers cfg scores
    if prMaxDiff scores new_scores (nodesList g) < cfg.epsilon then new_scores
    else prRun g pers cfg k new_scores

/-- The initial uniform score map `1/N` over all nodes. -/
def pagerankInit (g : BookGraph) : List (Int × ℚ) :=
  (nodesList g).map (fun v => (v, 1 / ((nodesList g).length : ℚ)))

/-- Models `personalized_pagerank`: empty map on the empty graph, otherwise
power iteration from the uniform distribution with the personalization
vector above. -/
def personalized_pagerank (g : BookGraph) (seeds preferences : List Int)
    (cfg : PageRankConfig) : List (Int × ℚ) :=
  if (nodesList g).length = 0 then []
  else
    prRun g (personalizationFun g seeds preferences cfg) cfg cfg.iterations
      (pagerankInit g)

/-! ## Maximal marginal relevance (`maximal_marginal_relevance`) -/

/-- The MMR score of one candidate against the already selected items:
`lambda * relevance - (1 - lambda) * max_similarity_to_selected`, the
similarity term folding from 0.0 and being 0 when nothing is selected
yet. -/
def mmrScore (selected : List TraversalCandidate)
    (similarity_fn : Int → Int → ℚ) (lambda : ℚ)
    (c : TraversalCandidate) : ℚ :=
  let max_sim : ℚ :=
    if selected.isEmpty then 0
    else
      selected.foldl (fun m s => max m (similarity_fn c.book_id s.book_id)) 0
  lambda * c.score - (1 - lambda) * max_sim

/-- One step of the argmax scan of an MMR round, on the Rust loop state
`(next_index, best_idx, best_mmr)`; `best_mmr = none` models the initial
negative infinity, which any finite score beats. -/
def mmrFoldStep (selected : List TraversalCandidate)
    (similarity_fn : Int → Int → ℚ) (lambda : ℚ)
    (st : Nat × Nat × Option ℚ) (c : TraversalCandidate) :
    Nat × Nat × Option ℚ :=
  match st.2.2 with
  | none => (st.1 + 1, st.1, some (mmrScore selected similarity_fn lambda c))
  | some best =>
    if best < mmrScore selected similarity_fn lambda c then
      (st.1 + 1, st.1, some (mmrScore selected similarity_fn lambda c))
    else (st.1 + 1, st.2.1, some best)

/-- The argmax scan of one MMR round over `remaining`: the strict `>`
comparison keeps the earliest index on ties. -/
def mmrBestFold (selected : List TraversalCandidate)
    (similarity_fn : Int → Int → ℚ) (lambda : ℚ)
    (remaining : List TraversalCandidate) : Nat × Nat × Option ℚ :=
  remaining.foldl (mmrFoldStep selected similarity_fn lambda) (0, 0, none)

/-- The `while selected.len() < top_k && !remaining.is_empty()` loop of MMR:
each round moves the argmax candidate from `remaining` to `selected`.  The
fuel is the number of picks still allowed, so it equals `top_k` initially;
the impossible out-of-range index (`Vec::remove` would panic) returns the
current selection. -/
def mmrLoop (similarity_fn : Int → Int → ℚ) (lambda : ℚ) :
    Nat → List TraversalCandidate → List TraversalCandidate →
      List TraversalCandidate
  | 0, selected, _ => selected
  | Nat.succ k, selected, remaining =>
    if remaining.isEmpty then selected
    else
      let best_idx := (mmrBestFold selected similarity_fn lambda remaining).2.1
      match remaining[best_idx]? with
      | none => selected
      | some best =>
        mmrLoop similarity_fn lambda k (selected ++ [best])
          (remaining.eraseIdx best_idx)

/-- Models `maximal_marginal_relevance`. -/
def maximal_marginal_relevance (candidates : List TraversalCandidate)
    (similarity_fn : Int → Int → ℚ) (lambda : ℚ) (top_k : Nat) :
    List TraversalCandidate :=
  if candidates.isEmpty then []
  else mmrLoop similarity_fn lambda top_k [] candidates

/-! ## The full pipeline (`generate_recommendations`) -/

/-- Models `RecommendationScore`. -/
structure RecommendationScore where
  book_id : Int
  traversal_score : ℚ
  pagerank_score : ℚ
  combined_score : ℚ
  path : List Int
  edge_types : List String
deriving DecidableEq

/-- Models `scored.iter().find(|s| s.book_id == id)`. -/
def findByBookId (scored : List RecommendationScore) (id : Int) :
    Option RecommendationScore :=
  match scored with
  | [] => none
  | s :: rest => if s.book_id = id then some s else findByBookId rest id

/-- The similarity closure passed to MMR by `generate_recommendations`:
one minus the absolute difference of the two candidates' combined scores
(0 for ids missing from `scored`). -/
def genSimilarity (scored : List RecommendationScore) (a b : Int) : ℚ :=
  let score_a :=
    ((findByBookId scored a).map RecommendationScore.combined_score).getD 0
  let score_b :=
    ((findByBookId scored b).map RecommendationScore.combined_score).getD 0
  1 - |score_a - score_b|

/-- Models `generate_recommendations`: multi-hop traversal from the source
(empty result short-circuits), personalized PageRank, score fusion
`0.7 * traversal + 0.3 * pagerank` (missing PageRank entries contribute 0),
MMR re-ranking, and recovery of the full records by id. -/
def generate_recommendations (g : BookGraph) (source_book_id : Int)
    (user_highly_rated : List Int) (limit : Nat) :
    List RecommendationScore :=
  let candidates :=
    multi_hop_traversal g [source_book_id] TraversalConfig.default
  if candidates.isEmpty then []
  else
    let pagerank_scores := personalized_pagerank g [source_book_id]
      user_highly_rated PageRankConfig.default
    let scored := candidates.map (fun c =>
      let pr_score := lookupD pagerank_scores c.book_id 0
      { book_id := c.book_id, traversal_score := c.score,
        pagerank_score := pr_score,
        combined_score := 7/10 * c.score + 3/10 * pr_score,
        path := c.path, edge_types := c.edge_types : RecommendationScore })
    let scored_candidates := scored.map (fun s =>
      TraversalCandidate.mk s.book_id s.combined_score s.path s.edge_types)
    let diverse := maximal_marginal_relevance scored_candidates
      (genSimilarity scored) (7/10) limit
    diverse.filterMap (fun c => findByBookId scored c.book_id)

/-! ## Concrete instances used by the claims -/

/-- The chain graph of the end-to-end scenario: edges (1→2, 0.9), (2→3, 0.8),
(3→4, 0.7), all of type "content". -/
def exampleGraph : BookGraph :=
  ⟨[⟨1, 2, 9/10, "content"⟩, ⟨2, 3, 8/10, "content"⟩,
    ⟨3, 4, 7/10, "content"⟩]⟩

/-- A single-edge graph (1→2, weight 0.9, type "content"). -/
def pairGraph : BookGraph :=
  ⟨[⟨1, 2, 9/10, "content"⟩]⟩

/-- A fan-out graph: node 1 has two unit-weight edges, to 2 and to 3. -/
def capGraph : BookGraph :=
  ⟨[⟨1, 2, 1, "content"⟩, ⟨1, 3, 1, "content"⟩]⟩

/-- A traversal configuration with candidate cap 1 (one hop, threshold 0,
no decay). -/
def capConfig : TraversalConfig := ⟨1, [0], 1, 1⟩

/-- A graph with a unit-weight self-loop on node 10 and a feeder edge from
node 11. -/
def selfLoopGraph : BookGraph :=
  ⟨[⟨10, 10, 1, "content"⟩, ⟨11, 10, 1, "content"⟩]⟩

/-- Two MMR candidates with relevance 0.1 and 0.9. -/
def mmrTwoCandidates : List TraversalCandidate :=
  [⟨1, 1/10, [], []⟩, ⟨2, 9/10, [], []⟩]

/-! # Theorems

First the generic lemmas about the helper functions, then one theorem per
claim (with a witness or counterexample where required). -/

/-! ## Lemmas about the descending insertion sort -/

theorem mem_insertByDesc {α β : Type} [LinearOrder β] (key : α → β) (c : α)
    (l : List α) (a : α) : a ∈ insertByDesc key c l ↔ a = c ∨ a ∈ l := by
  induction l with
  | nil => simp [insertByDesc]
  | cons x rest ih =>
    simp only [insertByDesc]
    by_cases h : key x < key c
    · simp [h]
    · simp [h, ih]
      tauto

theorem length_insertByDesc {α β : Type} [LinearOrder β] (key : α → β) (c : α)
    (l : List α) : (insertByDesc key c l).length = l.length + 1 := by
  induction l with
  | nil => simp [insertByDesc]
  | cons x rest ih =>
    simp only [insertByDesc]
    by_cases h : key x < key c
    · simp [h]
    · simp [h, ih]

theorem pairwise_insertByDesc {α β : Type} [LinearOrder β] (key : α → β)
    (c : α) (l : List α) (hl : l.Pairwise (fun a b => key b ≤ key a)) :
    (insertByDesc key c l).Pairwise (fun a b => key b ≤ key a) := by
  induction l with
  | nil => simp [insertByDesc]
  | cons x rest ih =>
    rcases List.pairwise_cons.mp hl with ⟨hx, hrest⟩
    simp only [insertByDesc]
    by_cases h : key x < key c
    · rw [if_pos h]
      refine List.pairwise_cons.mpr ⟨?_, hl⟩
      intro b hb
      rcases List.mem_cons.mp hb with rfl | hb
      · exact le_of_lt h
      · exact le_trans (hx b hb) (le_of_lt h)
    · rw [if_neg h]
      refine List.pairwise_cons.mpr ⟨?_, ih hrest⟩
      intro b hb
      rcases (mem_insertByDesc key c rest b).mp hb with rfl | hb
      · exact le_of_not_lt h
      · exact hx b hb

theorem mem_sortByDesc {α β : Type} [LinearOrder β] (key : α → β)
    (l : List α) (a : α) : a ∈ sortByDesc key l ↔ a ∈ l := by
  induction l with
  | nil => simp [sortByDesc]
  | cons x rest ih => simp [sortByDesc, mem_insertByDesc, ih]

theorem length_sortByDesc {α β : Type} [LinearOrder β] (key : α → β)
    (l : List α) : (sortByDesc key l).length = l.length := by
  induction l with
  | nil => simp [sortByDesc]
  | cons x rest ih => simp [sortByDesc, length_insertByDesc, ih]

theorem pairwise_sortByDesc {α β : Type} [LinearOrder β] (key : α → β)
    (l : List α) :
    (sortByDesc key l).Pairwise (fun a b => key b ≤ key a) := by
  induction l with
  | nil => simp [sortByDesc]
  | cons x rest ih => exact pairwise_insertByDesc key x _ ih

/-! ## Serialisation lemmas and claims C9, C7, C8, C10 -/

theorem length_serialize_embedding (v : List Nat) :
    (serialize_embedding v).length = 4 * v.length := by
  induction v with
  | nil => simp [serialize_embedding]
  | cons x rest ih => simp [serialize_embedding, ih]; omega

theorem deserializeChunks_serialize (v : List Nat)
    (h : ∀ x ∈ v, x < 4294967296) :
    deserializeChunks (serialize_embedding v) = some v := by
  induction v with
  | nil => simp [serialize_embedding, deserializeChunks]
  | cons x rest ih =>
    have hx : x < 4294967296 := h x (List.mem_cons_self x rest)
    have hrest : ∀ y ∈ rest, y < 4294967296 := fun y hy =>
      h y (List.mem_cons_of_mem x hy)
    have hx4 : x % 256 + 256 * (x / 256 % 256) + 65536 * (x / 65536 % 256) +
        16777216 * (x / 16777216 % 256) = x := by omega
    simp only [serialize_embedding, deserializeChunks, ih hrest, hx4]
    rfl

/-- C9: for every vector of 32-bit floats (modelled by their 32-bit
patterns), deserialising the serialised little-endian byte form yields the
vector back unchanged: `deserialize_embedding (serialize_embedding v) =
some v`. -/
theorem C9_serialize_roundtrip (v : List Nat) (h : ∀ x ∈ v, x < 4294967296) :
    deserialize_embedding (serialize_embedding v) = some v := by
  unfold deserialize_embedding
  rw [length_serialize_embedding]
  have h4 : 4 * v.length % 4 = 0 := by omega
  rw [if_pos h4]
  exact deserializeChunks_serialize v h

/-- Witness for C9 at the concrete vector `[0, 1, 3212836864]` (the last
entry is the bit pattern of `-1.0f32`). -/
theorem C9_serialize_roundtrip_witness :
    (∀ x ∈ [0, 1, 3212836864], x < 4294967296) ∧
      deserialize_embedding (serialize_embedding [0, 1, 3212836864]) =
        some [0, 1, 3212836864] :=
  ⟨by decide, C9_serialize_roundtrip [0, 1, 3212836864] (by decide)⟩

/-- C7: for every store state and every embedding whose length is not the
configured dimension (768), `store_embedding` fails with the
dimension-mismatch error and leaves both the cache entry and the persisted
row for that id unchanged (in fact it leaves the whole state unchanged). -/
theorem C7_store_embedding_dimension_mismatch (s : VSState) (book_id : Int)
    (embedding : List ℚ) (model : String) (text_hash : Option String)
    (h : embedding.length ≠ EMBEDDING_DIM) :
    (store_embedding s book_id embedding model text_hash).1 =
        some (VSError.dimensionMismatch EMBEDDING_DIM embedding.length) ∧
      lookupOpt (store_embedding s book_id embedding model text_hash).2.cache
          book_id = lookupOpt s.cache book_id ∧
      lookupOpt (store_embedding s book_id embedding model text_hash).2.db
          book_id = lookupOpt s.db book_id := by
  simp [store_embedding, h]

/-- Witness for C7: storing a 2-dimensional vector into an empty store
fails with the dimension-mismatch error and changes nothing. -/
theorem C7_store_embedding_dimension_mismatch_witness :
    (store_embedding ⟨[], []⟩ 7 [(1 : ℚ), 2] "nomic" none).1 =
        some (VSError.dimensionMismatch EMBEDDING_DIM
          ([(1 : ℚ), 2]).length) ∧
      lookupOpt (store_embedding ⟨[], []⟩ 7 [(1 : ℚ), 2] "nomic" none).2.cache
          7 = lookupOpt (VSState.mk [] []).cache 7 ∧
      lookupOpt (store_embedding ⟨[], []⟩ 7 [(1 : ℚ), 2] "nomic" none).2.db
          7 = lookupOpt (VSState.mk [] []).db 7 :=
  C7_store_embedding_dimension_mismatch ⟨[], []⟩ 7 [(1 : ℚ), 2] "nomic" none
    (by decide)

/-- C8: two items with non-empty equal authors but different series (and no
embedding similarity) yield exactly the single edge `(0.85, "author")`; two
items sharing no author and no series (and no embedding similarity) yield
the empty edge list. -/
theorem C8_edge_fusion_author_only :
    (∀ (a b : Book) (s : String), a.author = some s → s ≠ "" →
      b.author = some s → a.series ≠ b.series →
      compute_all_edge_weights a b none = [((85/100 : ℚ), "author")]) ∧
    (∀ a b : Book, ¬(a.author.isSome = true ∧ a.author = b.author) →
      ¬(a.series.isSome = true ∧ a.series = b.series) →
      compute_all_edge_weights a b none = []) := by
  constructor
  · intro a b s ha hs hb hser
    have h1 : a.author.isSome = true ∧ a.author = b.author := by
      rw [ha, hb]; exact ⟨rfl, rfl⟩
    have h2 : ¬(a.series.isSome = true ∧ a.series = b.series) :=
      fun hc => hser hc.2
    simp [compute_all_edge_weights, h1, h2, hb]
  · intro a b h1 h2
    simp [compute_all_edge_weights, h1, h2]

/-- Witness for C8: concrete books sharing the author `"x"` but in different
series, and concrete books with no metadata at all. -/
theorem C8_edge_fusion_author_only_witness :
    compute_all_edge_weights ⟨some "x", some "s1", none⟩
        ⟨some "x", some "s2", none⟩ none = [((85/100 : ℚ), "author")] ∧
      compute_all_edge_weights ⟨none, none, none⟩ ⟨none, none, none⟩ none =
        [] :=
  ⟨C8_edge_fusion_author_only.1 ⟨some "x", some "s1", none⟩
      ⟨some "x", some "s2", none⟩ "x" rfl (by decide) rfl (by decide),
    C8_edge_fusion_author_only.2 ⟨none, none, none⟩ ⟨none, none, none⟩
      (by decide) (by decide)⟩

/-- C10: `compute_all_edge_weights` is symmetric in its two book arguments,
element for element and in the same order. -/
theorem C10_compute_all_edge_weights_comm (a b : Book) (s : Option ℚ) :
    compute_all_edge_weights a b s = compute_all_edge_weights b a s := by
  obtain ⟨aa, as', ai⟩ := a
  obtain ⟨ba, bs', bi⟩ := b
  have hauth : (Option.isSome aa = true ∧ aa = ba) ↔
      (Option.isSome ba = true ∧ ba = aa) := by
    constructor <;> rintro ⟨h1, h2⟩ <;> subst h2 <;> exact ⟨h1, rfl⟩
  have hser : (Option.isSome as' = true ∧ as' = bs') ↔
      (Option.isSome bs' = true ∧ bs' = as') := by
    constructor <;> rintro ⟨h1, h2⟩ <;> subst h2 <;> exact ⟨h1, rfl⟩
  simp only [compute_all_edge_weights]
  congr 1
  congr 1
  · exact if_congr hauth rfl rfl
  · refine if_congr hser ?_ rfl
    rcases ai with _ | x <;> rcases bi with _ | y <;> simp only []
    rw [abs_sub_comm]

/-! ## Claim C6: `find_similar` -/

/-- C6: for every cache snapshot, query, `k` and exclusion list,
`find_similar` returns no excluded id, at most `k` results, and a list
sorted in descending order of the computed cosine similarity. -/
theorem C6_find_similar_spec (cache : List (Int × List ℚ)) (query : List ℚ)
    (k : Nat) (exclude_ids : List Int) :
    (∀ p ∈ find_similar cache query k exclude_ids, p.1 ∉ exclude_ids) ∧
      (find_similar cache query k exclude_ids).length ≤ k ∧
      (find_similar cache query k exclude_ids).Pairwise
        (fun a b => b.2 ≤ a.2) := by
  refine ⟨?_, ?_, ?_⟩
  · intro p hp
    simp only [find_similar] at hp
    have hp2 := (mem_sortByDesc _ _ _).mp (List.mem_of_mem_take hp)
    rcases List.mem_map.mp hp2 with ⟨e, he, rfl⟩
    have := (List.mem_filter.mp he).2
    exact of_decide_eq_true this
  · simp only [find_similar]
    exact List.length_take_le _ _
  · simp only [find_similar]
    exact List.Pairwise.sublist (List.take_sublist _ _)
      (pairwise_sortByDesc Prod.snd _)

/-! ## Traversal lemmas and claims C1, C3 -/

theorem mem_endpoints_of_mem_edges (es : List GraphEdge) (e : GraphEdge)
    (he : e ∈ es) :
    e.source ∈ es.foldr (fun e acc => e.source :: e.target :: acc) [] ∧
      e.target ∈ es.foldr (fun e acc => e.source :: e.target :: acc) [] := by
  induction es with
  | nil => cases he
  | cons x rest ih =>
    rcases List.mem_cons.mp he with rfl | he
    · simp
    · have := ih he
      constructor <;> simp [this.1, this.2]

theorem le_foldl_natMax (l : List Nat) (init : Nat) :
    init ≤ l.foldl Nat.max init := by
  induction l generalizing init with
  | nil => simp
  | cons x rest ih =>
    exact le_trans (Nat.le_max_left init x) (ih (Nat.max init x))

theorem mem_le_foldl_natMax (l : List Nat) (x : Nat) (hx : x ∈ l)
    (init : Nat) : x ≤ l.foldl Nat.max init := by
  induction l generalizing init with
  | nil => cases hx
  | cons y rest ih =>
    rcases List.mem_cons.mp hx with rfl | hx
    · exact le_trans (Nat.le_max_right init x) (le_foldl_natMax rest _)
    · exact ih hx _

theorem neighbors_length_le_maxOutDegree (g : BookGraph) (u : Int) :
    (g.neighbors u).length ≤ maxOutDegree g := by
  by_cases hu : (g.neighbors u).length = 0
  · omega
  · have hne : g.neighbors u ≠ [] := by
      intro h; rw [h] at hu; exact hu rfl
    have hmem : u ∈ nodesList g := by
      rcases List.exists_mem_of_ne_nil _ hne with ⟨y, hy⟩
      rcases List.mem_filterMap.mp hy with ⟨e, he, heq⟩
      by_cases hsrc : e.source = u
      · subst hsrc
        exact List.mem_dedup.mpr (mem_endpoints_of_mem_edges g.edges e he).1
      · rw [if_neg hsrc] at heq; cases heq
    have : (g.neighbors u).length ∈
        (nodesList g).map (fun v => (g.neighbors v).length) :=
      List.mem_map.mpr ⟨u, hmem, rfl⟩
    exact mem_le_foldl_natMax _ _ this 0

theorem length_updateCandidate (cands : List (Int × TraversalCandidate))
    (key : Int) (c : TraversalCandidate) :
    (updateCandidate cands key c).length ≤ cands.length + 1 := by
  unfold updateCandidate
  split_ifs with h
  · simp
  · simp

theorem mem_updateCandidate (cands : List (Int × TraversalCandidate))
    (key : Int) (c : TraversalCandidate) (p : Int × TraversalCandidate)
    (hp : p ∈ updateCandidate cands key c) : p ∈ cands ∨ p = (key, c) := by
  unfold updateCandidate at hp
  split_ifs at hp with h
  · rcases List.mem_map.mp hp with ⟨q, hq, rfl⟩
    by_cases hq1 : q.1 = key
    · rw [if_pos hq1]
      by_cases hsc : q.2.score < c.score
      · rw [if_pos hsc]; right; rw [hq1]
      · rw [if_neg hsc]; left
        have heq : (q.1, q.2) = q := rfl
        rw [heq]; exact hq
    · rw [if_neg hq1]; exact Or.inl hq
  · rcases List.mem_append.mp hp with hp | hp
    · exact Or.inl hp
    · right; simpa using hp

theorem candidates_travExpandStep (cfg : TraversalConfig)
    (item : FrontierItem) (minw : ℚ) (st : TravState) (nb : Int × ℚ × String)
    (p : Int × TraversalCandidate)
    (hp : p ∈ (travExpandStep cfg item minw st nb).candidates) :
    p ∈ st.candidates ∨
      (p.1 = nb.1 ∧ p.2 =
        ⟨nb.1, item.score * nb.2.1 * cfg.decay_factor ^ item.hop,
          item.path ++ [nb.1], item.edge_types ++ [nb.2.2]⟩) := by
  unfold travExpandStep at hp
  split_ifs at hp with h1 h2
  · exact Or.inl hp
  · rcases mem_updateCandidate _ _ _ _ hp with hp | hp
    · exact Or.inl hp
    · right; rw [hp]; exact ⟨rfl, rfl⟩
  · rcases mem_updateCandidate _ _ _ _ hp with hp | hp
    · exact Or.inl hp
    · right; rw [hp]; exact ⟨rfl, rfl⟩

theorem length_candidates_travExpandStep (cfg : TraversalConfig)
    (item : FrontierItem) (minw : ℚ) (st : TravState)
    (nb : Int × ℚ × String) :
    (travExpandStep cfg item minw st nb).candidates.length ≤
      st.candidates.length + 1 := by
  unfold travExpandStep
  split_ifs with h1 h2
  · omega
  · exact length_updateCandidate _ _ _
  · exact length_updateCandidate _ _ _

theorem frontier_travExpandStep (cfg : TraversalConfig) (item : FrontierItem)
    (minw : ℚ) (st : TravState) (nb : Int × ℚ × String) (it : FrontierItem)
    (hit : it ∈ (travExpandStep cfg item minw st nb).frontier) :
    it ∈ st.frontier ∨
      (it.path = item.path ++ [nb.1] ∧ it.hop = item.hop + 1) := by
  unfold travExpandStep at hit
  split_ifs at hit with h1 h2
  · exact Or.inl hit
  · exact Or.inl hit
  · rcases List.mem_append.mp hit with hit | hit
    · exact Or.inl hit
    · right
      have : it = ⟨nb.1, item.score * nb.2.1 * cfg.decay_factor ^ item.hop,
          item.path ++ [nb.1], item.edge_types ++ [nb.2.2],
          item.hop + 1⟩ := by simpa using hit
      rw [this]; exact ⟨rfl, rfl⟩

theorem foldl_travExpandStep_length (cfg : TraversalConfig)
    (item : FrontierItem) (minw : ℚ) (l : List (Int × ℚ × String)) :
    ∀ st : TravState,
      ((l.foldl (travExpandStep cfg item minw) st).candidates.length ≤
        st.candidates.length + l.length) := by
  induction l with
  | nil => intro st; simp
  | cons nb rest ih =>
    intro st
    calc ((rest.foldl (travExpandStep cfg item minw)
            (travExpandStep cfg item minw st nb)).candidates.length)
        ≤ (travExpandStep cfg item minw st nb).candidates.length +
            rest.length := ih _
      _ ≤ st.candidates.length + 1 + rest.length := by
          have := length_candidates_travExpandStep cfg item minw st nb
          omega
      _ = st.candidates.length + (nb :: rest).length := by simp; omega

theorem foldl_travExpandStep_cand_prop (cfg : TraversalConfig)
    (item : FrontierItem) (minw : ℚ) (l : List (Int × ℚ × String))
    (hpath : item.path.length = item.hop + 1)
    (hhop : item.hop < cfg.max_hops) :
    ∀ st : TravState,
      (∀ p ∈ st.candidates,
        p.2.book_id = p.1 ∧ p.2.path.length ≤ cfg.max_hops + 1) →
      ∀ p ∈ (l.foldl (travExpandStep cfg item minw) st).candidates,
        p.2.book_id = p.1 ∧ p.2.path.length ≤ cfg.max_hops + 1 := by
  induction l with
  | nil => intro st hst; exact hst
  | cons nb rest ih =>
    intro st hst
    refine ih _ ?_
    intro p hp
    rcases candidates_travExpandStep cfg item minw st nb p hp with hp | hp
    · exact hst p hp
    · refine ⟨by rw [hp.2, hp.1], ?_⟩
      rw [hp.2]
      simp only [List.length_append, hpath, List.length_cons,
        List.length_nil]
      omega

theorem foldl_travExpandStep_frontier_prop (cfg : TraversalConfig)
    (item : FrontierItem) (minw : ℚ) (l : List (Int × ℚ × String))
    (hpath : item.path.length = item.hop + 1) :
    ∀ st : TravState,
      (∀ it ∈ st.frontier, it.path.length = it.hop + 1) →
      ∀ it ∈ (l.foldl (travExpandStep cfg item minw) st).frontier,
        it.path.length = it.hop + 1 := by
  induction l with
  | nil => intro st hst; exact hst
  | cons nb rest ih =>
    intro st hst
    refine ih _ ?_
    intro it hit
    rcases frontier_travExpandStep cfg item minw st nb it hit with hit | hit
    · exact hst it hit
    · rw [hit.1, hit.2]
      simp [hpath]

theorem travLoop_inv (g : BookGraph) (cfg : TraversalConfig) (fuel : Nat) :
    ∀ st : TravState,
      (∀ p ∈ st.candidates,
        p.2.book_id = p.1 ∧ p.2.path.length ≤ cfg.max_hops + 1) →
      (∀ it ∈ st.frontier, it.path.length = it.hop + 1) →
      st.candidates.length ≤ cfg.max_candidates - 1 + maxOutDegree g →
      ((∀ p ∈ (travLoop g cfg fuel st).candidates,
          p.2.book_id = p.1 ∧ p.2.path.length ≤ cfg.max_hops + 1) ∧
        (travLoop g cfg fuel st).candidates.length ≤
          cfg.max_candidates - 1 + maxOutDegree g) := by
  induction fuel with
  | zero => intro st h1 h2 h3; exact ⟨h1, h3⟩
  | succ fuel ih =>
    rintro ⟨cands, vis, fr⟩ h1 h2 h3
    rcases fr with _ | ⟨item, rest⟩
    · simp only [travLoop]
      exact ⟨h1, h3⟩
    · simp only [travLoop]
      by_cases hguard : cfg.max_hops ≤ item.hop ∨
          cfg.max_candidates ≤ cands.length
      · rw [if_pos hguard]
        exact ih _ h1 (fun it hit => h2 it (List.mem_cons_of_mem _ hit)) h3
      · rw [if_neg hguard]
        push_neg at hguard
        have hpath : item.path.length = item.hop + 1 :=
          h2 item (List.mem_cons_self _ _)
        have hhop : item.hop < cfg.max_hops := hguard.1
        have hcap : cands.length < cfg.max_candidates := hguard.2
        refine ih _ ?_ ?_ ?_
        · exact foldl_travExpandStep_cand_prop cfg item _ _ hpath hhop _ h1
        · refine foldl_travExpandStep_frontier_prop cfg item _ _ hpath _ ?_
          intro it hit
          exact h2 it (List.mem_cons_of_mem _ hit)
        · calc ((g.neighbors item.node).foldl
                (travExpandStep cfg item (cfg.min_weights.getD item.hop
                  (3/10)))
                ⟨cands, vis, rest⟩).candidates.length
              ≤ (TravState.mk cands vis rest).candidates.length +
                  (g.neighbors item.node).length :=
                foldl_travExpandStep_length _ _ _ _ _
            _ ≤ cfg.max_candidates - 1 + maxOutDegree g := by
                have := neighbors_length_le_maxOutDegree g item.node
                simp only [TravState.mk.injEq] at hcap ⊢
                omega

theorem initTravState_aux (seeds : List Int) :
    ∀ st : TravState,
      (∀ it ∈ st.frontier, it.path.length = it.hop + 1) →
      ((seeds.foldl
        (fun st s =>
          { st with
            visited :=
              if s ∈ st.visited then st.visited else st.visited ++ [s],
            frontier := st.frontier ++ [⟨s, 1, [s], [], 0⟩] })
        st).candidates = st.candidates ∧
      ∀ it ∈ (seeds.foldl
        (fun st s =>
          { st with
            visited :=
              if s ∈ st.visited then st.visited else st.visited ++ [s],
            frontier := st.frontier ++ [⟨s, 1, [s], [], 0⟩] })
        st).frontier, it.path.length = it.hop + 1) := by
  induction seeds with
  | nil => intro st h; exact ⟨rfl, h⟩
  | cons s rest ih =>
    intro st h
    refine ih _ ?_
    intro it hit
    rcases List.mem_append.mp hit with hit | hit
    · exact h it hit
    · have : it = ⟨s, 1, [s], [], 0⟩ := by simpa using hit
      rw [this]
      simp

theorem initTravState_spec (seeds : List Int) :
    (initTravState seeds).candidates = [] ∧
      ∀ it ∈ (initTravState seeds).frontier,
        it.path.length = it.hop + 1 := by
  have := initTravState_aux seeds ⟨[], [], []⟩ (by intro it hit; cases hit)
  exact this

/-- C1, amended: the traversal result never contains a seed id, every
candidate lies within `max_hops` hops of a seed (its recorded path, which
starts at a seed, has length at most `max_hops + 1`, so no node is expanded
at hop depth `max_hops` or beyond), and the candidate map can overshoot
`max_candidates` only by the out-degree of the single node whose expansion
crossed the cap: its size, and hence the result length, is at most
`max_candidates - 1 + maxOutDegree g`. -/
theorem C1_traversal_invariants (g : BookGraph) (seeds : List Int)
    (cfg : TraversalConfig) :
    (∀ c ∈ multi_hop_traversal g seeds cfg, c.book_id ∉ seeds) ∧
      (∀ c ∈ multi_hop_traversal g seeds cfg,
        c.path.length ≤ cfg.max_hops + 1) ∧
      (multi_hop_traversal g seeds cfg).length ≤
        cfg.max_candidates - 1 + maxOutDegree g := by
  have hinit := initTravState_spec seeds
  have hinv := travLoop_inv g cfg (seeds.length + g.edges.length + 1)
    (initTravState seeds)
    (by rw [hinit.1]; intro p hp; cases hp) hinit.2
    (by rw [hinit.1]; simp)
  refine ⟨?_, ?_, ?_⟩
  · intro c hc
    simp only [multi_hop_traversal] at hc
    rcases List.mem_map.mp ((mem_sortByDesc _ _ _).mp hc) with ⟨p, hp, rfl⟩
    have hfilter := List.mem_filter.mp hp
    have hnotseed := of_decide_eq_true hfilter.2
    have := (hinv.1 p hfilter.1).1
    rw [this]
    exact hnotseed
  · intro c hc
    simp only [multi_hop_traversal] at hc
    rcases List.mem_map.mp ((mem_sortByDesc _ _ _).mp hc) with ⟨p, hp, rfl⟩
    exact (hinv.1 p (List.mem_filter.mp hp).1).2
  · simp only [multi_hop_traversal]
    rw [length_sortByDesc, List.length_map]
    exact le_trans (List.length_filter_le _ _) hinv.2

/-- Counterexample for C1 as stated: on the fan-out graph, with a
configuration capping candidates at 1, a single expansion of the seed
materialises two candidates, so the result exceeds `max_candidates`. -/
theorem C1_max_candidates_counterexample :
    ¬((multi_hop_traversal capGraph [1] capConfig).length ≤
      capConfig.max_candidates) := by
  norm_num [multi_hop_traversal, travLoop, initTravState, travExpandStep,
    updateCandidate, capGraph, capConfig, BookGraph.neighbors,
    List.filterMap, sortByDesc, insertByDesc, List.foldl, List.getD,
    List.getElem?_cons]

/-- Witness for C1 (amended) on the three-edge chain graph: candidate 2 is
returned, is not the seed, and satisfies the hop bound; the result length
respects the overshoot bound. -/
theorem C1_traversal_invariants_witness :
    ((⟨2, 9/10, [1, 2], ["content"]⟩ : TraversalCandidate).book_id ∉
        ([1] : List Int)) ∧
      ((⟨2, 9/10, [1, 2], ["content"]⟩ : TraversalCandidate).path.length ≤
        TraversalConfig.default.max_hops + 1) ∧
      (multi_hop_traversal exampleGraph [1]
          TraversalConfig.default).length ≤
        TraversalConfig.default.max_candidates - 1 +
          maxOutDegree exampleGraph := by
  have h := C1_traversal_invariants exampleGraph [1] TraversalConfig.default
  have hmem : (⟨2, 9/10, [1, 2], ["content"]⟩ : TraversalCandidate) ∈
      multi_hop_traversal exampleGraph [1] TraversalConfig.default := by
    norm_num [multi_hop_traversal, travLoop, initTravState, travExpandStep,
      updateCandidate, exampleGraph, TraversalConfig.default,
      BookGraph.neighbors, List.filterMap, sortByDesc, insertByDesc,
      List.foldl, List.getD, List.getElem?_cons]
  exact ⟨h.1 _ hmem, h.2.1 _ hmem, h.2.2⟩

/-- C3: on the chain graph (1→2 weight 0.9, 2→3 weight 0.8, 3→4 weight 0.7,
all "content"), the default-config traversal from seed 1 returns exactly the
candidates 2, 3, 4, with strictly decreasing scores 0.9 > 0.54 > 0.2126...
(= 1701/8000). -/
theorem C3_end_to_end_chain :
    (multi_hop_traversal exampleGraph [1] TraversalConfig.default).map
        (fun c => (c.book_id, c.score)) =
      [(2, 9/10), (3, 27/50), (4, 1701/8000)] ∧
      (9/10 : ℚ) > 27/50 ∧ (27/50 : ℚ) > 1701/8000 := by
  constructor
  · norm_num [multi_hop_traversal, travLoop, initTravState, travExpandStep,
      updateCandidate, exampleGraph, TraversalConfig.default,
      BookGraph.neighbors, List.filterMap, sortByDesc, insertByDesc,
      List.foldl, List.getD, List.getElem?_cons]
  · norm_num

/-! ## PageRank lemmas and claim C2 -/

theorem sum_map_swap {α β : Type} (l1 : List α) (l2 : List β)
    (f : α → β → ℚ) :
    (l1.map (fun a => (l2.map (f a)).sum)).sum =
      (l2.map (fun b => (l1.map (fun a => f a b)).sum)).sum := by
  induction l1 with
  | nil =>
    simp only [List.map_nil, List.sum_nil]
    rw [eq_comm]
    exact List.sum_eq_zero (by simp)
  | cons a rest ih =>
    simp only [List.map_cons, List.sum_cons, ih, ← List.sum_map_add]

theorem sum_ite_eq_mem (nodes : List Int) (hnd : nodes.Nodup) (x : Int)
    (c : ℚ) :
    ((nodes.map (fun v => if x = v then c else 0)).sum) =
      if x ∈ nodes then c else 0 := by
  induction nodes with
  | nil => simp
  | cons y rest ih =>
    rcases List.nodup_cons.mp hnd with ⟨hy, hrest⟩
    by_cases hxy : x = y
    · subst hxy
      have hrest0 : ((rest.map (fun v => if x = v then c else 0)).sum) = 0 :=
        List.sum_eq_zero (by
          intro z hz
          rcases List.mem_map.mp hz with ⟨v, hv, rfl⟩
          rw [if_neg]
          intro h; exact hy (h ▸ hv))
      simp [hrest0]
    · simp only [List.map_cons, List.sum_cons, if_neg hxy, zero_add, ih hrest]
      simp [List.mem_cons, hxy]

theorem sum_count_le (nodes : List Int) (hnd : nodes.Nodup) (s : List Int) :
    ((nodes.map (fun v => (s.count v : ℚ))).sum) ≤ (s.length : ℚ) := by
  induction s with
  | nil => simp [List.sum_eq_zero]
  | cons x rest ih =>
    have hsplit : ∀ v : Int, ((List.count v (x :: rest) : ℚ)) =
        (List.count v rest : ℚ) + (if v = x then (1 : ℚ) else 0) := by
      intro v
      by_cases hvx : v = x
      · subst hvx; simp [List.count_cons]
      · simp [List.count_cons, hvx]
    calc ((nodes.map (fun v => ((x :: rest).count v : ℚ))).sum)
        = ((nodes.map (fun v =>
            (rest.count v : ℚ) + (if v = x then (1 : ℚ) else 0))).sum) := by
          apply congrArg
          exact List.map_congr_left (fun v _ => hsplit v)
      _ = ((nodes.map (fun v => (rest.count v : ℚ))).sum) +
            ((nodes.map (fun v => if v = x then (1 : ℚ) else 0)).sum) :=
          List.sum_map_add
      _ ≤ (rest.length : ℚ) + 1 := by
          have h2 : ((nodes.map (fun v => if v = x then (1 : ℚ) else 0)).sum)
              ≤ 1 := by
            have heq : (nodes.map (fun v => if v = x then (1 : ℚ) else 0)) =
                (nodes.map (fun v => if x = v then (1 : ℚ) else 0)) :=
              List.map_congr_left (fun v _ => if_congr eq_comm rfl rfl)
            rw [heq, sum_ite_eq_mem nodes hnd x 1]
            split_ifs <;> norm_num
          exact add_le_add ih h2
      _ = ((x :: rest).length : ℚ) := by
          simp [List.length_cons]

theorem sum_map_const_rat (l : List Int) (c : ℚ) :
    ((l.map (fun _ => c)).sum) = (l.length : ℚ) * c := by
  induction l with
  | nil => simp
  | cons x rest ih =>
    simp only [List.map_cons, List.sum_cons, ih, List.length_cons]
    push_cast
    ring

theorem personalizationFun_nonneg (g : BookGraph) (seeds prefs : List Int)
    (cfg : PageRankConfig) (hpw : 0 ≤ cfg.preference_weight)
    (hpw1 : cfg.preference_weight ≤ 1) (v : Int) :
    0 ≤ personalizationFun g seeds prefs cfg v := by
  unfold personalizationFun persValue
  have hn : (0 : ℚ) ≤ 1 / ((nodesList g).length : ℚ) := by positivity
  split_ifs
  · have h1 : (0 : ℚ) ≤ (1 - cfg.preference_weight) /
        ((Nat.max seeds.length 1 : ℕ) : ℚ) := by
      apply div_nonneg (by linarith) (by positivity)
    have h2 : (0 : ℚ) ≤ cfg.preference_weight /
        ((Nat.max prefs.length 1 : ℕ) : ℚ) := by
      apply div_nonneg hpw (by positivity)
    positivity
  · exact hn
  · exact hn

theorem one_div_nodes_le_one (g : BookGraph) :
    1 / ((nodesList g).length : ℚ) ≤ 1 := by
  rcases Nat.eq_zero_or_pos (nodesList g).length with h | h
  · rw [h]; norm_num
  · rw [div_le_one (by positivity)]
    exact_mod_cast h

theorem weight_share_le (w : ℚ) (cnt len : Nat) (hw : 0 ≤ w)
    (hcnt : cnt ≤ len) :
    w / ((Nat.max len 1 : ℕ) : ℚ) * (cnt : ℚ) ≤ w := by
  have hM : (1 : ℚ) ≤ ((Nat.max len 1 : ℕ) : ℚ) := by
    have : 1 ≤ Nat.max len 1 := Nat.le_max_right len 1
    exact_mod_cast this
  have hMpos : (0 : ℚ) < ((Nat.max len 1 : ℕ) : ℚ) := by linarith
  have hcnt' : (cnt : ℚ) ≤ ((Nat.max len 1 : ℕ) : ℚ) := by
    have : cnt ≤ Nat.max len 1 := le_trans hcnt (Nat.le_max_left len 1)
    exact_mod_cast this
  rw [div_mul_eq_mul_div, div_le_iff₀ hMpos]
  exact mul_le_mul_of_nonneg_left hcnt' hw

theorem personalizationFun_le_one (g : BookGraph) (seeds prefs : List Int)
    (cfg : PageRankConfig) (hpw : 0 ≤ cfg.preference_weight)
    (hpw1 : cfg.preference_weight ≤ 1) (v : Int) :
    personalizationFun g seeds prefs cfg v ≤ 1 := by
  unfold personalizationFun persValue
  split_ifs
  · have h1 := weight_share_le (1 - cfg.preference_weight)
      (seeds.count v) seeds.length (by linarith) (List.count_le_length v seeds)
    have h2 := weight_share_le cfg.preference_weight
      (prefs.count v) prefs.length hpw (List.count_le_length v prefs)
    linarith
  · exact one_div_nodes_le_one g
  · exact one_div_nodes_le_one g

theorem personalizationFun_pointwise (g : BookGraph) (seeds prefs : List Int)
    (cfg : PageRankConfig) (hpw : 0 ≤ cfg.preference_weight)
    (hpw1 : cfg.preference_weight ≤ 1) (v : Int) :
    personalizationFun g seeds prefs cfg v ≤
      (1 - cfg.preference_weight) / ((Nat.max seeds.length 1 : ℕ) : ℚ) *
          (seeds.count v : ℚ) +
        cfg.preference_weight / ((Nat.max prefs.length 1 : ℕ) : ℚ) *
          (prefs.count v : ℚ) +
        1 / ((nodesList g).length : ℚ) := by
  have hs : (0 : ℚ) ≤ (1 - cfg.preference_weight) /
      ((Nat.max seeds.length 1 : ℕ) : ℚ) * (seeds.count v : ℚ) := by
    apply mul_nonneg (div_nonneg (by linarith) (by positivity)) (by positivity)
  have hp : (0 : ℚ) ≤ cfg.preference_weight /
      ((Nat.max prefs.length 1 : ℕ) : ℚ) * (prefs.count v : ℚ) := by
    apply mul_nonneg (div_nonneg hpw (by positivity)) (by positivity)
  have hn : (0 : ℚ) ≤ 1 / ((nodesList g).length : ℚ) := by positivity
  unfold personalizationFun persValue
  split_ifs
  · linarith
  · linarith
  · linarith

theorem personalization_sum_le_two (g : BookGraph) (seeds prefs : List Int)
    (cfg : PageRankConfig) (hpw : 0 ≤ cfg.preference_weight)
    (hpw1 : cfg.preference_weight ≤ 1) :
    (((nodesList g).map (personalizationFun g seeds prefs cfg)).sum) ≤ 2 := by
  have hnd : (nodesList g).Nodup := List.nodup_dedup _
  have hpoint := fun v =>
    personalizationFun_pointwise g seeds prefs cfg hpw hpw1 v
  calc (((nodesList g).map (personalizationFun g seeds prefs cfg)).sum)
      ≤ (((nodesList g).map (fun v =>
          (1 - cfg.preference_weight) / ((Nat.max seeds.length 1 : ℕ) : ℚ) *
              (seeds.count v : ℚ) +
            cfg.preference_weight / ((Nat.max prefs.length 1 : ℕ) : ℚ) *
              (prefs.count v : ℚ) +
            1 / ((nodesList g).length : ℚ))).sum) :=
        List.sum_le_sum (fun v _ => hpoint v)
    _ ≤ 2 := by
        rw [show (fun v : Int =>
            (1 - cfg.preference_weight) / ((Nat.max seeds.length 1 : ℕ) : ℚ) *
                (seeds.count v : ℚ) +
              cfg.preference_weight / ((Nat.max prefs.length 1 : ℕ) : ℚ) *
                (prefs.count v : ℚ) +
              1 / ((nodesList g).length : ℚ)) = (fun v : Int =>
            ((1 - cfg.preference_weight) /
                ((Nat.max seeds.length 1 : ℕ) : ℚ) * (seeds.count v : ℚ) +
              cfg.preference_weight / ((Nat.max prefs.length 1 : ℕ) : ℚ) *
                (prefs.count v : ℚ)) +
              1 / ((nodesList g).length : ℚ)) from rfl]
        rw [List.sum_map_add, List.sum_map_add]
        have hseed : (((nodesList g).map (fun v =>
            (1 - cfg.preference_weight) / ((Nat.max seeds.length 1 : ℕ) : ℚ) *
              (seeds.count v : ℚ))).sum) ≤ 1 - cfg.preference_weight := by
          rw [List.sum_map_mul_left]
          have := sum_count_le (nodesList g) hnd seeds
          calc (1 - cfg.preference_weight) /
                ((Nat.max seeds.length 1 : ℕ) : ℚ) *
                (((nodesList g).map (fun v => (seeds.count v : ℚ))).sum)
              ≤ (1 - cfg.preference_weight) /
                  ((Nat.max seeds.length 1 : ℕ) : ℚ) * (seeds.length : ℚ) :=
              mul_le_mul_of_nonneg_left this
                (div_nonneg (by linarith) (by positivity))
            _ ≤ 1 - cfg.preference_weight :=
              weight_share_le _ _ _ (by linarith) le_rfl
        have hpref : (((nodesList g).map (fun v =>
            cfg.preference_weight / ((Nat.max prefs.length 1 : ℕ) : ℚ) *
              (prefs.count v : ℚ))).sum) ≤ cfg.preference_weight := by
          rw [List.sum_map_mul_left]
          have := sum_count_le (nodesList g) hnd prefs
          calc cfg.preference_weight /
                ((Nat.max prefs.length 1 : ℕ) : ℚ) *
                (((nodesList g).map (fun v => (prefs.count v : ℚ))).sum)
              ≤ cfg.preference_weight /
                  ((Nat.max prefs.length 1 : ℕ) : ℚ) * (prefs.length : ℚ) :=
              mul_le_mul_of_nonneg_left this
                (div_nonneg hpw (by positivity))
            _ ≤ cfg.preference_weight :=
              weight_share_le _ _ _ hpw le_rfl
        have hunif : (((nodesList g).map (fun _ =>
            1 / ((nodesList g).length : ℚ))).sum) ≤ 1 := by
          rw [sum_map_const_rat]
          rcases Nat.eq_zero_or_pos (nodesList g).length with h | h
          · rw [h]; norm_num
          · have hpos : (0 : ℚ) < ((nodesList g).length : ℚ) := by
              exact_mod_cast h
            rw [mul_one_div, div_self (ne_of_gt hpos)]
        linarith

theorem outDegree_pos (g : BookGraph) (u : Int) : 0 < outDegree g u := by
  unfold outDegree
  have : 1 ≤ Nat.max (g.neighbors u).length 1 := Nat.le_max_right _ 1
  exact_mod_cast Nat.lt_of_lt_of_le Nat.zero_lt_one this

theorem neighbors_length_le_outDegree (g : BookGraph) (u : Int) :
    ((g.neighbors u).length : ℚ) ≤ outDegree g u := by
  unfold outDegree
  exact_mod_cast Nat.le_max_left _ 1

theorem neighbors_weight_bounds (g : BookGraph)
    (hw : ∀ e ∈ g.edges, 0 ≤ e.weight ∧ e.weight ≤ 1) (u : Int)
    (t : Int × ℚ × String) (ht : t ∈ g.neighbors u) :
    0 ≤ t.2.1 ∧ t.2.1 ≤ 1 := by
  rcases List.mem_filterMap.mp ht with ⟨e, he, heq⟩
  by_cases hsrc : e.source = u
  · rw [if_pos hsrc] at heq
    injection heq with h
    subst h
    exact hw e he
  · rw [if_neg hsrc] at heq; cases heq

theorem neighbors_target_mem_nodes (g : BookGraph) (u : Int)
    (t : Int × ℚ × String) (ht : t ∈ g.neighbors u) :
    t.1 ∈ nodesList g := by
  rcases List.mem_filterMap.mp ht with ⟨e, he, heq⟩
  by_cases hsrc : e.source = u
  · rw [if_pos hsrc] at heq
    injection heq with h
    subst h
    exact List.mem_dedup.mpr (mem_endpoints_of_mem_edges g.edges e he).2
  · rw [if_neg hsrc] at heq; cases heq

theorem sum_neighbor_weights_le (g : BookGraph)
    (hw : ∀ e ∈ g.edges, 0 ≤ e.weight ∧ e.weight ≤ 1) (u : Int) :
    (((g.neighbors u).map (fun t => t.2.1)).sum) ≤ outDegree g u := by
  calc (((g.neighbors u).map (fun t => t.2.1)).sum)
      ≤ (((g.neighbors u).map (fun _ => (1 : ℚ))).sum) :=
        List.sum_le_sum (fun t ht => (neighbors_weight_bounds g hw u t ht).2)
    _ = ((g.neighbors u).length : ℚ) := by
        induction g.neighbors u with
        | nil => simp
        | cons x rest ih =>
          simp only [List.map_cons, List.sum_cons, ih, List.length_cons]
          push_cast
          ring
    _ ≤ outDegree g u := neighbors_length_le_outDegree g u

theorem contributionTo_nonneg (g : BookGraph)
    (hw : ∀ e ∈ g.edges, 0 ≤ e.weight ∧ e.weight ≤ 1) (v u : Int) (su : ℚ)
    (hsu : 0 ≤ su) : 0 ≤ contributionTo g v u su := by
  apply List.sum_nonneg
  intro x hx
  rcases List.mem_map.mp hx with ⟨t, ht, rfl⟩
  have hwb := (neighbors_weight_bounds g hw u t ht).1
  have hD := outDegree_pos g u
  split_ifs
  · positivity
  · exact le_refl 0

theorem contributionTo_le (g : BookGraph)
    (hw : ∀ e ∈ g.edges, 0 ≤ e.weight ∧ e.weight ≤ 1) (v u : Int) (su : ℚ)
    (hsu : 0 ≤ su) : contributionTo g v u su ≤ su := by
  have hD := outDegree_pos g u
  calc contributionTo g v u su
      ≤ (((g.neighbors u).map (fun t => su * t.2.1 / outDegree g u)).sum) := by
        apply List.sum_le_sum
        intro t ht
        have hwb := (neighbors_weight_bounds g hw u t ht).1
        split_ifs
        · exact le_rfl
        · positivity
    _ = su / outDegree g u * (((g.neighbors u).map (fun t => t.2.1)).sum) := by
        rw [← List.sum_map_mul_left]
        apply congrArg
        apply List.map_congr_left
        intro t _
        ring
    _ ≤ su / outDegree g u * outDegree g u :=
        mul_le_mul_of_nonneg_left (sum_neighbor_weights_le g hw u)
          (by positivity)
    _ = su := div_mul_cancel₀ su (ne_of_gt hD)

theorem sum_contributionTo_le (g : BookGraph)
    (hw : ∀ e ∈ g.edges, 0 ≤ e.weight ∧ e.weight ≤ 1) (u : Int) (su : ℚ)
    (hsu : 0 ≤ su) :
    (((nodesList g).map (fun v => contributionTo g v u su)).sum) ≤ su := by
  have hnd : (nodesList g).Nodup := List.nodup_dedup _
  have hD := outDegree_pos g u
  have hswap : (((nodesList g).map (fun v => contributionTo g v u su)).sum) =
      (((g.neighbors u).map (fun t =>
        (((nodesList g).map (fun v =>
          if t.1 = v then su * t.2.1 / outDegree g u else 0)).sum))).sum) :=
    sum_map_swap (nodesList g) (g.neighbors u)
      (fun v t => if t.1 = v then su * t.2.1 / outDegree g u else 0)
  rw [hswap]
  calc (((g.neighbors u).map (fun t =>
        (((nodesList g).map (fun v =>
          if t.1 = v then su * t.2.1 / outDegree g u else 0)).sum))).sum)
      = (((g.neighbors u).map (fun t => su * t.2.1 / outDegree g u)).sum) := by
        apply congrArg
        apply List.map_congr_left
        intro t ht
        rw [sum_ite_eq_mem (nodesList g) hnd t.1 _]
        rw [if_pos (neighbors_target_mem_nodes g u t ht)]
    _ = su / outDegree g u * (((g.neighbors u).map (fun t => t.2.1)).sum) := by
        rw [← List.sum_map_mul_left]
        apply congrArg
        apply List.map_congr_left
        intro t _
        ring
    _ ≤ su / outDegree g u * outDegree g u :=
        mul_le_mul_of_nonneg_left (sum_neighbor_weights_le g hw u)
          (by positivity)
    _ = su := div_mul_cancel₀ su (ne_of_gt hD)

theorem inflowTo_nonneg (g : BookGraph)
    (hw : ∀ e ∈ g.edges, 0 ≤ e.weight ∧ e.weight ≤ 1)
    (scores : List (Int × ℚ)) (hs : ∀ p ∈ scores, 0 ≤ p.2) (v : Int) :
    0 ≤ inflowTo g scores v := by
  apply List.sum_nonneg
  intro x hx
  rcases List.mem_map.mp hx with ⟨p, hp, rfl⟩
  exact contributionTo_nonneg g hw v p.1 p.2 (hs p hp)

theorem inflowTo_le_total (g : BookGraph)
    (hw : ∀ e ∈ g.edges, 0 ≤ e.weight ∧ e.weight ≤ 1)
    (scores : List (Int × ℚ)) (hs : ∀ p ∈ scores, 0 ≤ p.2) (v : Int) :
    inflowTo g scores v ≤ ((scores.map (fun p => p.2)).sum) := by
  apply List.sum_le_sum
  intro p hp
  exact contributionTo_le g hw v p.1 p.2 (hs p hp)

theorem sum_inflowTo_le (g : BookGraph)
    (hw : ∀ e ∈ g.edges, 0 ≤ e.weight ∧ e.weight ≤ 1)
    (scores : List (Int × ℚ)) (hs : ∀ p ∈ scores, 0 ≤ p.2) :
    (((nodesList g).map (fun v => inflowTo g scores v)).sum) ≤
      ((scores.map (fun p => p.2)).sum) := by
  have hswap : (((nodesList g).map (fun v => inflowTo g scores v)).sum) =
      ((scores.map (fun p =>
        (((nodesList g).map (fun v => contributionTo g v p.1 p.2)).sum))).sum) :=
    sum_map_swap (nodesList g) scores
      (fun v p => contributionTo g v p.1 p.2)
  rw [hswap]
  apply List.sum_le_sum
  intro p hp
  exact sum_contributionTo_le g hw p.1 p.2 (hs p hp)

theorem prStep_invariant (g : BookGraph) (pers : Int → ℚ)
    (cfg : PageRankConfig)
    (hw : ∀ e ∈ g.edges, 0 ≤ e.weight ∧ e.weight ≤ 1)
    (hd0 : 0 ≤ cfg.damping) (hd1 : cfg.damping ≤ 1)
    (hpers0 : ∀ v, 0 ≤ pers v)
    (hpersS : (((nodesList g).map pers).sum) ≤ 2)
    (scores : List (Int × ℚ)) (hs0 : ∀ p ∈ scores, 0 ≤ p.2)
    (hsS : ((scores.map (fun p => p.2)).sum) ≤ 2) :
    (∀ p ∈ prStep g pers cfg scores, 0 ≤ p.2) ∧
      (((prStep g pers cfg scores).map (fun p => p.2)).sum) ≤ 2 := by
  constructor
  · intro p hp
    rcases List.mem_map.mp hp with ⟨v, hv, rfl⟩
    have h1 := inflowTo_nonneg g hw scores hs0 v
    have h2 := hpers0 v
    have h3 : (0 : ℚ) ≤ cfg.damping * inflowTo g scores v :=
      mul_nonneg hd0 h1
    have h4 : (0 : ℚ) ≤ (1 - cfg.damping) * pers v :=
      mul_nonneg (by linarith) h2
    show 0 ≤ cfg.damping * inflowTo g scores v + (1 - cfg.damping) * pers v
    linarith
  · unfold prStep
    rw [List.map_map]
    have heq : ((nodesList g).map ((fun p : Int × ℚ => p.2) ∘ (fun v =>
        (v, cfg.damping * inflowTo g scores v +
          (1 - cfg.damping) * pers v)))) =
        ((nodesList g).map (fun v =>
          cfg.damping * inflowTo g scores v +
            (1 - cfg.damping) * pers v)) := rfl
    rw [heq, List.sum_map_add]
    have hin : (((nodesList g).map (fun v =>
        cfg.damping * inflowTo g scores v)).sum) ≤ cfg.damping * 2 := by
      rw [List.sum_map_mul_left]
      exact mul_le_mul_of_nonneg_left
        (le_trans (sum_inflowTo_le g hw scores hs0) hsS) hd0
    have hper : (((nodesList g).map (fun v =>
        (1 - cfg.damping) * pers v)).sum) ≤ (1 - cfg.damping) * 2 := by
      rw [List.sum_map_mul_left]
      exact mul_le_mul_of_nonneg_left hpersS (by linarith)
    linarith

theorem prStep_entry_le (g : BookGraph) (pers : Int → ℚ)
    (cfg : PageRankConfig)
    (hw : ∀ e ∈ g.edges, 0 ≤ e.weight ∧ e.weight ≤ 1)
    (hd0 : 0 ≤ cfg.damping) (hd1 : cfg.damping ≤ 1)
    (hpers0 : ∀ v, 0 ≤ pers v) (hpers1 : ∀ v, pers v ≤ 1)
    (scores : List (Int × ℚ)) (hs0 : ∀ p ∈ scores, 0 ≤ p.2)
    (hsS : ((scores.map (fun p => p.2)).sum) ≤ 2) :
    ∀ p ∈ prStep g pers cfg scores, p.2 ≤ 2 := by
  intro p hp
  rcases List.mem_map.mp hp with ⟨v, hv, rfl⟩
  have h1 := inflowTo_le_total g hw scores hs0 v
  have h2 := hpers1 v
  have h3 := hpers0 v
  have h4 := inflowTo_nonneg g hw scores hs0 v
  have h5 : inflowTo g scores v ≤ 2 := le_trans h1 hsS
  have h6 : cfg.damping * inflowTo g scores v ≤ cfg.damping * 2 :=
    mul_le_mul_of_nonneg_left h5 hd0
  have h7 : (1 - cfg.damping) * pers v ≤ (1 - cfg.damping) * 1 :=
    mul_le_mul_of_nonneg_left h2 (by linarith)
  simp only []
  nlinarith

theorem prRun_invariant (g : BookGraph) (pers : Int → ℚ)
    (cfg : PageRankConfig)
    (hw : ∀ e ∈ g.edges, 0 ≤ e.weight ∧ e.weight ≤ 1)
    (hd0 : 0 ≤ cfg.damping) (hd1 : cfg.damping ≤ 1)
    (hpers0 : ∀ v, 0 ≤ pers v) (hpers1 : ∀ v, pers v ≤ 1)
    (hpersS : (((nodesList g).map pers).sum) ≤ 2) (k : Nat) :
    ∀ scores : List (Int × ℚ), (∀ p ∈ scores, 0 ≤ p.2) →
      ((scores.map (fun p => p.2)).sum) ≤ 2 →
      (∀ p ∈ prRun g pers cfg k scores, 0 ≤ p.2) ∧
        (((prRun g pers cfg k scores).map (fun p => p.2)).sum) ≤ 2 ∧
        (∀ p ∈ prRun g pers cfg k scores, p.2 ≤ 2) := by
  induction k with
  | zero =>
    intro scores hs0 hsS
    refine ⟨hs0, hsS, ?_⟩
    intro p hp
    calc p.2 ≤ ((scores.map (fun p => p.2)).sum) :=
          List.single_le_sum (by
            intro x hx
            rcases List.mem_map.mp hx with ⟨q, hq, rfl⟩
            exact hs0 q hq) _ (List.mem_map.mpr ⟨p, hp, rfl⟩)
      _ ≤ 2 := hsS
  | succ k ih =>
    intro scores hs0 hsS
    have hstep := prStep_invariant g pers cfg hw hd0 hd1 hpers0
      hpersS scores hs0 hsS
    have hentry := prStep_entry_le g pers cfg hw hd0 hd1 hpers0 hpers1
      scores hs0 hsS
    simp only [prRun]
    split_ifs
    · exact ⟨hstep.1, hstep.2, hentry⟩
    · exact ih _ hstep.1 hstep.2

theorem pagerankInit_invariant (g : BookGraph) :
    (∀ p ∈ pagerankInit g, 0 ≤ p.2) ∧
      (((pagerankInit g).map (fun p => p.2)).sum) ≤ 2 := by
  constructor
  · intro p hp
    rcases List.mem_map.mp hp with ⟨v, hv, rfl⟩
    positivity
  · unfold pagerankInit
    rw [List.map_map]
    have heq : ((nodesList g).map ((fun p : Int × ℚ => p.2) ∘ (fun v =>
        (v, 1 / ((nodesList g).length : ℚ))))) =
        ((nodesList g).map (fun _ => 1 / ((nodesList g).length : ℚ))) := rfl
    rw [heq, sum_map_const_rat]
    rcases Nat.eq_zero_or_pos (nodesList g).length with h | h
    · rw [h]; norm_num
    · have hpos : (0 : ℚ) < ((nodesList g).length : ℚ) := by exact_mod_cast h
      rw [mul_one_div, div_self (ne_of_gt hpos)]
      norm_num

/-- C2, amended: for every graph whose edge weights all lie in [0,1], every
seed and preference list, and every configuration whose damping factor and
preference weight lie in [0,1], every score of every power iterate stays
bounded in [0,2], and in particular every score in the returned map lies in
[0,2].  (The claimed [0,1] bound fails: a self-loop lets a node keep its own
mass while also receiving personalization mass, see the counterexample.) -/
theorem C2_pagerank_bounded (g : BookGraph) (seeds prefs : List Int)
    (cfg : PageRankConfig)
    (hw : ∀ e ∈ g.edges, 0 ≤ e.weight ∧ e.weight ≤ 1)
    (hd0 : 0 ≤ cfg.damping) (hd1 : cfg.damping ≤ 1)
    (hp0 : 0 ≤ cfg.preference_weight) (hp1 : cfg.preference_weight ≤ 1) :
    (∀ k : Nat,
      ∀ p ∈ prRun g (personalizationFun g seeds prefs cfg) cfg k
        (pagerankInit g), 0 ≤ p.2 ∧ p.2 ≤ 2) ∧
      (∀ p ∈ personalized_pagerank g seeds prefs cfg,
        0 ≤ p.2 ∧ p.2 ≤ 2) := by
  have hinit := pagerankInit_invariant g
  have hmain := fun k => prRun_invariant g
    (personalizationFun g seeds prefs cfg) cfg hw hd0 hd1
    (personalizationFun_nonneg g seeds prefs cfg hp0 hp1)
    (personalizationFun_le_one g seeds prefs cfg hp0 hp1)
    (personalization_sum_le_two g seeds prefs cfg hp0 hp1) k
    (pagerankInit g) hinit.1 hinit.2
  constructor
  · intro k p hp
    exact ⟨(hmain k).1 p hp, (hmain k).2.2 p hp⟩
  · intro p hp
    unfold personalized_pagerank at hp
    split_ifs at hp
    · cases hp
    · exact ⟨(hmain cfg.iterations).1 p hp,
        (hmain cfg.iterations).2.2 p hp⟩

set_option maxHeartbeats 4000000 in
/-- Counterexample for C2 as stated: on the self-loop graph (all weights
1.0, hence in [0,1]), with seed and preference both node 10 and the default
configuration, node 10's returned PageRank score exceeds 1 (it is
approximately 1.406, converging towards 1.425). -/
theorem C2_unit_interval_counterexample :
    (∀ e ∈ selfLoopGraph.edges, 0 ≤ e.weight ∧ e.weight ≤ 1) ∧
      1 < lookupD (personalized_pagerank selfLoopGraph [10] [10]
        PageRankConfig.default) 10 0 := by
  constructor
  · intro e he
    norm_num [selfLoopGraph] at he
    rcases he with rfl | rfl <;> norm_num
  · norm_num [personalized_pagerank, prRun, prStep, prMaxDiff, pagerankInit,
      nodesList, endpointList, personalizationFun, persValue, inflowTo,
      contributionTo, outDegree, BookGraph.neighbors, lookupD, selfLoopGraph,
      PageRankConfig.default, List.dedup, List.pwFilter, List.filterMap,
      List.foldl, List.count_cons, List.count_nil, max_def, abs_sub_lt_iff,
      abs_sub_le_iff, abs_of_nonneg]

set_option maxHeartbeats 2000000 in
/-- Witness for C2 (amended) on the single-edge graph: the uniform initial
score 1/2 (iterate `k = 0`) and the returned score 21/200 of node 1 both lie
in [0,2]. -/
theorem C2_pagerank_bounded_witness :
    ((0 : ℚ) ≤ ((1 : Int), (1/2 : ℚ)).2 ∧ ((1 : Int), (1/2 : ℚ)).2 ≤ 2) ∧
      ((0 : ℚ) ≤ ((1 : Int), (21/200 : ℚ)).2 ∧
        ((1 : Int), (21/200 : ℚ)).2 ≤ 2) := by
  have hw : ∀ e ∈ pairGraph.edges, 0 ≤ e.weight ∧ e.weight ≤ 1 := by
    intro e he
    norm_num [pairGraph] at he
    rw [he]
    norm_num
  have h := C2_pagerank_bounded pairGraph [1] [] PageRankConfig.default hw
    (by norm_num [PageRankConfig.default]) (by norm_num [PageRankConfig.default])
    (by norm_num [PageRankConfig.default]) (by norm_num [PageRankConfig.default])
  constructor
  · refine h.1 0 ((1 : Int), (1/2 : ℚ)) ?_
    norm_num [prRun, pagerankInit, nodesList, endpointList, pairGraph,
      List.dedup, List.pwFilter]
  · refine h.2 ((1 : Int), (21/200 : ℚ)) ?_
    norm_num [personalized_pagerank, prRun, prStep, prMaxDiff, pagerankInit,
      nodesList, endpointList, personalizationFun, persValue, inflowTo,
      contributionTo, outDegree, BookGraph.neighbors, lookupD, pairGraph,
      PageRankConfig.default, List.dedup, List.pwFilter, List.filterMap,
      List.foldl, List.count_cons, List.count_nil, max_def, abs_sub_lt_iff,
      abs_sub_le_iff, abs_of_nonneg]

/-! ## MMR lemmas and claim C5 -/

theorem mmrFoldStep_some (selected : List TraversalCandidate)
    (simf : Int → Int → ℚ) (lam : ℚ) (i bi : Nat) (m : ℚ)
    (c : TraversalCandidate) :
    mmrFoldStep selected simf lam (i, bi, some m) c =
      if m < mmrScore selected simf lam c then
        (i + 1, i, some (mmrScore selected simf lam c))
      else (i + 1, bi, some m) := rfl

theorem mmrFold_some_spec (selected : List TraversalCandidate)
    (simf : Int → Int → ℚ) (lam : ℚ) (l : List TraversalCandidate) :
    ∀ (i bi : Nat) (m : ℚ),
      ∃ bi' m',
        l.foldl (mmrFoldStep selected simf lam) (i, bi, some m) =
          (i + l.length, bi', some m') ∧
        m ≤ m' ∧ (∀ c ∈ l, mmrScore selected simf lam c ≤ m') ∧
        ((bi' = bi ∧ m' = m) ∨ ∃ j, ∃ hj : j < l.length,
          bi' = i + j ∧ m' = mmrScore selected simf lam (l.get ⟨j, hj⟩)) := by
  induction l with
  | nil =>
    intro i bi m
    exact ⟨bi, m, by simp, le_rfl, by simp, Or.inl ⟨rfl, rfl⟩⟩
  | cons c rest ih =>
    intro i bi m
    rw [List.foldl_cons, mmrFoldStep_some]
    by_cases hc : m < mmrScore selected simf lam c
    · rw [if_pos hc]
      obtain ⟨bi', m', heq, hle, hall, hatt⟩ :=
        ih (i + 1) i (mmrScore selected simf lam c)
      have hlen : i + 1 + rest.length = i + (c :: rest).length := by
        simp [List.length_cons]; omega
      refine ⟨bi', m', by rw [heq, hlen], le_trans (le_of_lt hc) hle, ?_, ?_⟩
      · intro c' hc'
        rcases List.mem_cons.mp hc' with rfl | hc'
        · exact hle
        · exact hall c' hc'
      · rcases hatt with ⟨hbi, hm⟩ | ⟨j, hj, hbi, hm⟩
        · right
          refine ⟨0, by simp, by omega, ?_⟩
          simpa using hm
        · right
          refine ⟨j + 1, by simp; omega, by omega, ?_⟩
          simpa using hm
    · rw [if_neg hc]
      obtain ⟨bi', m', heq, hle, hall, hatt⟩ := ih (i + 1) bi m
      have hlen : i + 1 + rest.length = i + (c :: rest).length := by
        simp [List.length_cons]; omega
      refine ⟨bi', m', by rw [heq, hlen], hle, ?_, ?_⟩
      · intro c' hc'
        rcases List.mem_cons.mp hc' with rfl | hc'
        · exact le_trans (le_of_not_lt hc) hle
        · exact hall c' hc'
      · rcases hatt with ⟨hbi, hm⟩ | ⟨j, hj, hbi, hm⟩
        · exact Or.inl ⟨hbi, hm⟩
        · right
          refine ⟨j + 1, by simp; omega, by omega, ?_⟩
          simpa using hm

theorem mmrBestFold_argmax (selected : List TraversalCandidate)
    (simf : Int → Int → ℚ) (lam : ℚ) (l : List TraversalCandidate)
    (hne : l ≠ []) :
    ∃ (J : Nat) (hJ : J < l.length),
      (mmrBestFold selected simf lam l).2.1 = J ∧
      ∀ c ∈ l, mmrScore selected simf lam c ≤
        mmrScore selected simf lam (l.get ⟨J, hJ⟩) := by
  rcases l with _ | ⟨c0, rest⟩
  · exact absurd rfl hne
  · unfold mmrBestFold
    rw [List.foldl_cons]
    have hstep : mmrFoldStep selected simf lam (0, 0, none) c0 =
        (1, 0, some (mmrScore selected simf lam c0)) := rfl
    rw [hstep]
    obtain ⟨bi', m', heq, hle, hall, hatt⟩ :=
      mmrFold_some_spec selected simf lam rest 1 0
        (mmrScore selected simf lam c0)
    rw [heq]
    rcases hatt with ⟨hbi, hm⟩ | ⟨j, hj, hbi, hm⟩
    · refine ⟨0, by simp, by simp [hbi], ?_⟩
      intro c hc
      rcases List.mem_cons.mp hc with rfl | hc
      · simp
      · have := hall c hc
        rw [hm] at this
        simpa using this
    · refine ⟨j + 1, by simp; omega, by simp [hbi]; omega, ?_⟩
      intro c hc
      rcases List.mem_cons.mp hc with rfl | hc
      · have : mmrScore selected simf lam c ≤ m' := hle
        rw [hm] at this
        simpa using this
      · have := hall c hc
        rw [hm] at this
        simpa using this

/-- C5, amended: for every non-empty candidate list, every similarity
function and every `lambda > 0`, MMR with `top_k = 1` returns exactly one
candidate, and its relevance score is maximal in the input list.  (For
`lambda ≤ 0` the claim fails: at `lambda = 0` every MMR score is 0 and the
strict comparison keeps the first candidate, see the counterexample.) -/
theorem C5_mmr_top1 (cands : List TraversalCandidate)
    (simf : Int → Int → ℚ) (lam : ℚ) (hne : cands ≠ []) (hlam : 0 < lam) :
    ∃ m, maximal_marginal_relevance cands simf lam 1 = [m] ∧ m ∈ cands ∧
      ∀ c ∈ cands, c.score ≤ m.score := by
  obtain ⟨J, hJ, hbi, hmax⟩ := mmrBestFold_argmax [] simf lam cands hne
  have hsc : ∀ d : TraversalCandidate, mmrScore [] simf lam d =
      lam * d.score - (1 - lam) * 0 := fun d => rfl
  refine ⟨cands.get ⟨J, hJ⟩, ?_, List.get_mem _ _ _, ?_⟩
  · unfold maximal_marginal_relevance
    rw [if_neg (by simpa using hne)]
    rw [show (1 : Nat) = 0 + 1 from rfl]
    simp only [mmrLoop]
    rw [if_neg (by simpa using hne), hbi,
      List.getElem?_eq_getElem hJ]
    simp [mmrLoop]
  · intro c hc
    have h := hmax c hc
    rw [hsc, hsc] at h
    have h2 : lam * c.score ≤ lam * (cands.get ⟨J, hJ⟩).score := by linarith
    exact le_of_mul_le_mul_left h2 hlam

/-- Counterexample for C5 as stated: with `lambda = 0` every candidate's MMR
score is 0, the strict comparison never updates the best index, and MMR
returns the first candidate (relevance 0.1) although a candidate of
relevance 0.9 is present. -/
theorem C5_lambda_zero_counterexample :
    maximal_marginal_relevance mmrTwoCandidates (fun _ _ => 0) 0 1 =
        [⟨1, 1/10, [], []⟩] ∧
      (⟨2, 9/10, [], []⟩ : TraversalCandidate) ∈ mmrTwoCandidates ∧
      ¬((9/10 : ℚ) ≤ (1/10 : ℚ)) := by
  refine ⟨?_, by simp [mmrTwoCandidates], by norm_num⟩
  norm_num [maximal_marginal_relevance, mmrLoop, mmrBestFold, mmrFoldStep,
    mmrScore, mmrTwoCandidates, List.foldl, List.eraseIdx,
    List.getElem?_cons]

/-- Witness for C5 (amended) at the two-candidate list with `lambda =
0.7`. -/
theorem C5_mmr_top1_witness :
    ∃ m, maximal_marginal_relevance mmrTwoCandidates (fun _ _ => 0)
        (7/10) 1 = [m] ∧ m ∈ mmrTwoCandidates ∧
      ∀ c ∈ mmrTwoCandidates, c.score ≤ m.score :=
  C5_mmr_top1 mmrTwoCandidates (fun _ _ => 0) (7/10)
    (by simp [mmrTwoCandidates]) (by norm_num)

/-- Witness for C6 at a one-entry cache: the returned pair `(1, 1)` carries
an id outside the (empty) exclusion list. -/
theorem C6_find_similar_witness :
    ((1 : Int), (1 : ℝ)).1 ∉ ([] : List Int) :=
  (C6_find_similar_spec [(1, [1])] [1] 1 []).1 (1, 1) (by
    norm_num [find_similar, cosine_similarity, sortByDesc, insertByDesc,
      List.filter, Real.sqrt_one])

/-! ## Pipeline lemmas and claim C4 -/

theorem findByBookId_mem (scored : List RecommendationScore) (id : Int)
    (r : RecommendationScore) (h : findByBookId scored id = some r) :
    r ∈ scored := by
  induction scored with
  | nil => cases h
  | cons s rest ih =>
    unfold findByBookId at h
    split_ifs at h with hs
    · injection h with h
      subst h
      exact List.mem_cons_self _ _
    · exact List.mem_cons_of_mem _ (ih h)

/-- C4: `generate_recommendations` returns the empty list when the
multi-hop traversal from the source yields no candidates; otherwise every
returned recommendation carries a combined score equal to `0.7 *
traversal_score + 0.3 * pagerank_score`, with the PageRank component read
from the PageRank map (0 when missing) and the traversal component being
the score of the traversal candidate with that book id. -/
theorem C4_generate_recommendations_spec (g : BookGraph) (src : Int)
    (prefs : List Int) (limit : Nat) :
    (multi_hop_traversal g [src] TraversalConfig.default = [] →
      generate_recommendations g src prefs limit = []) ∧
    (∀ r ∈ generate_recommendations g src prefs limit,
      r.combined_score =
          7/10 * r.traversal_score + 3/10 * r.pagerank_score ∧
        r.pagerank_score = lookupD (personalized_pagerank g [src] prefs
          PageRankConfig.default) r.book_id 0 ∧
        ∃ c ∈ multi_hop_traversal g [src] TraversalConfig.default,
          c.book_id = r.book_id ∧ c.score = r.traversal_score) := by
  constructor
  · intro h
    simp [generate_recommendations, h]
  · intro r hr
    simp only [generate_recommendations] at hr
    by_cases hemp :
        (multi_hop_traversal g [src] TraversalConfig.default).isEmpty
    · rw [if_pos hemp] at hr
      cases hr
    · rw [if_neg hemp] at hr
      rcases List.mem_filterMap.mp hr with ⟨c, hc, hfind⟩
      have hrs := findByBookId_mem _ _ _ hfind
      rcases List.mem_map.mp hrs with ⟨c', hc', rfl⟩
      exact ⟨rfl, rfl, ⟨c', hc', rfl, rfl⟩⟩

set_option maxHeartbeats 2000000 in
/-- Witness for C4: the empty graph yields no candidates and an empty
recommendation list; on the single-edge graph the unique recommendation for
book 2 fuses its traversal score 0.9 with its PageRank score 6213/40000
into the combined score 270639/400000. -/
theorem C4_generate_recommendations_witness :
    generate_recommendations ⟨[]⟩ 1 [] 5 = [] ∧
      ((270639/400000 : ℚ) =
          7/10 * (9/10 : ℚ) + 3/10 * (6213/40000 : ℚ) ∧
        (6213/40000 : ℚ) = lookupD (personalized_pagerank pairGraph [1] []
          PageRankConfig.default) 2 0 ∧
        ∃ c ∈ multi_hop_traversal pairGraph [1] TraversalConfig.default,
          c.book_id = 2 ∧ c.score = 9/10) := by
  constructor
  · refine (C4_generate_recommendations_spec ⟨[]⟩ 1 [] 5).1 ?_
    norm_num [multi_hop_traversal, travLoop, initTravState,
      BookGraph.neighbors, List.filterMap, sortByDesc]
  · exact (C4_generate_recommendations_spec pairGraph 1 [] 5).2
      ⟨2, 9/10, 6213/40000, 270639/400000, [1, 2], ["content"]⟩
      (by norm_num [generate_recommendations, multi_hop_traversal, travLoop,
        initTravState, travExpandStep, updateCandidate, pairGraph,
        TraversalConfig.default, BookGraph.neighbors, List.filterMap,
        sortByDesc, insertByDesc, List.foldl, List.getD,
        List.getElem?_cons, personalized_pagerank, prRun, prStep, prMaxDiff,
        pagerankInit, nodesList, endpointList, personalizationFun, persValue,
        inflowTo, contributionTo, outDegree, lookupD,
        PageRankConfig.default, List.dedup, List.pwFilter, List.count_cons,
        List.count_nil, max_def, abs_of_nonneg, maximal_marginal_relevance,
        mmrLoop, mmrBestFold, mmrFoldStep, mmrScore, genSimilarity,
        findByBookId, List.eraseIdx])

end EpubGraph
